import Mathlib

/-!
Verification development for the gosu-rag ingestion core (TypeScript).

Shallow embedding conventions:
* JavaScript strings that are indexed by position (chunk contents) are
  modelled as `List Char`; strings only compared or concatenated as a whole
  (ids, paths, hashes, error messages) are Lean `String`s.
* JavaScript numbers that hold integral values (sizes, offsets, line numbers,
  timestamps) are modelled as `Int` (or `Nat` where the source value is a
  list length).
* `async` functions that can reject are modelled with `Except`.
* External collaborators (the `crypto` digests, the filesystem, the parser +
  chunker + embedder + vector store behind `processFile`) are parameters of
  the embedded functions.
* The `while` loop of the oversize splitter is embedded with explicit fuel
  (`none` = the loop has not finished within `fuel` iterations), because the
  source loop does not terminate for every input.
-/

/-- JS `String.prototype.substring(a, b)` on a string modelled as `List Char`:
both indexes are clamped into `[0, length]` and swapped when `a > b`. -/
def jsSubstring (l : List Char) (a b : Int) : List Char :=
  let n : Int := l.length
  let a' : Int := min (max a 0) n
  let b' : Int := min (max b 0) n
  ((l.take (max a' b').toNat).drop (min a' b').toNat)

/-- Decimal digit characters, for modelling JS number-to-string conversion. -/
def digitChar10 (d : Nat) : Char :=
  match d with
  | 0 => '0' | 1 => '1' | 2 => '2' | 3 => '3' | 4 => '4'
  | 5 => '5' | 6 => '6' | 7 => '7' | 8 => '8' | _ => '9'

/-- Decimal rendering worker, structurally recursive on a fuel bound (any
`fuel > n` is enough, since dividing by 10 strictly shrinks `n`). -/
def natDecimalGo : Nat → Nat → List Char
  | 0, _ => []
  | fuel + 1, n =>
    if n < 10 then [digitChar10 n]
    else natDecimalGo fuel (n / 10) ++ [digitChar10 (n % 10)]

/-- Decimal rendering of a natural number, modelling JS `String(n)` for
nonnegative integral numbers. -/
def natDecimal (n : Nat) : List Char :=
  natDecimalGo (n + 1) n

/-- JS `String(n)` for an integral number `n`, as a Lean `String`. -/
def jsIntToString (n : Int) : String :=
  if n < 0 then "-" ++ String.mk (natDecimal (-n).toNat)
  else String.mk (natDecimal n.toNat)

/-- Does `l` start with `pre`? (JS-style comparison of code units.) -/
def startsWithChars (pre l : List Char) : Bool :=
  match pre, l with
  | [], _ => true
  | _ :: _, [] => false
  | a :: as_, b :: bs => a == b && startsWithChars as_ bs

/-- Does `hay` contain `needle` as a contiguous substring?  Models JS
`String.prototype.includes`. -/
def containsChars (needle : List Char) : List Char → Bool
  | [] => needle.isEmpty
  | h :: t => startsWithChars needle (h :: t) || containsChars needle t

/-- JS `hay.includes(needle)` on Lean strings. -/
def strIncludes (hay needle : String) : Bool :=
  containsChars needle.data hay.data

/-- JS `String.prototype.toLowerCase` (ASCII range, which covers every
keyword the classifier tests). -/
def jsToLower (s : String) : String :=
  String.mk (s.data.map Char.toLower)

/-! ## Chunk data model (src/config: `ChunkType`, `ChunkMetadata`, `Chunk`) -/

/-- The `ChunkType` union of string literals. -/
inductive ChunkType where
  | pkg | cls | interface | enum | function | method | property
  | template_directive | template_block | file
deriving DecidableEq, Repr

/-- The literal string each `ChunkType` member stands for. -/
def chunkTypeString : ChunkType → String
  | .pkg => "package"
  | .cls => "class"
  | .interface => "interface"
  | .enum => "enum"
  | .function => "function"
  | .method => "method"
  | .property => "property"
  | .template_directive => "template_directive"
  | .template_block => "template_block"
  | .file => "file"

/-- `ChunkMetadata` from src/config.  Optional fields are `Option`;
`package` is rendered as `pkg` (Lean field naming), values unchanged. -/
structure ChunkMetadata where
  absolutePath : String
  relativePath : String
  pkg : Option String
  className : Option String
  methodName : Option String
  chunkType : ChunkType
  language : String
  lineStart : Int
  lineEnd : Int
  contentHash : String
deriving DecidableEq, Repr

/-- `Chunk` from src/config; `content` is position-indexed, so `List Char`. -/
structure Chunk where
  id : String
  content : List Char
  metadata : ChunkMetadata
deriving DecidableEq, Repr

/-! ## Identity builder (src/config: `generateChunkId`)

`generateChunkId` builds `parts`, an array of strings, numbers and possibly
`undefined` entries, drops the falsy entries with `.filter(Boolean)`, joins
the rest with `':'` and digests the joined string with MD5.  The MD5 digest
is external library code (`crypto`), so it is a parameter; everything up to
it — the part list, JS truthiness, the join — is embedded exactly. -/

/-- One entry of the `parts` array: a JS string, number or `undefined`. -/
inductive JsPart where
  | str (s : String)
  | num (n : Int)
  | undef
deriving DecidableEq, Repr

/-- JS truthiness of a part (`.filter(Boolean)`): the empty string, the
number 0 and `undefined` are falsy. -/
def JsPart.truthy : JsPart → Bool
  | .str s => decide (s ≠ "")
  | .num n => decide (n ≠ 0)
  | .undef => false

/-- What `parts.join` renders a surviving part as (strings stay themselves,
numbers are converted with JS number-to-string). -/
def JsPart.render : JsPart → String
  | .str s => s
  | .num n => jsIntToString n
  | .undef => "undefined"

/-- An optional string field as a part: present values are JS strings,
absent ones `undefined`. -/
def optStr : Option String → JsPart
  | none => .undef
  | some s => .str s

/-- `metadata.contentHash.substring(0, 16)`. -/
def hashFirst16 (h : String) : String :=
  String.mk (h.data.take 16)

/-- `chunkIndex !== undefined ? chunkIndex.toString() : undefined`. -/
def indexPart : Option Int → JsPart
  | none => .undef
  | some i => .str (jsIntToString i)

/-- The `parts` array of `generateChunkId` after `.filter(Boolean)` and
rendering, in source order. -/
def chunkIdParts (m : ChunkMetadata) (chunkIndex : Option Int) : List String :=
  (([JsPart.str m.relativePath,
     optStr m.pkg,
     optStr m.className,
     optStr m.methodName,
     JsPart.str (chunkTypeString m.chunkType),
     JsPart.num m.lineStart,
     JsPart.num m.lineEnd,
     JsPart.str (hashFirst16 m.contentHash),
     indexPart chunkIndex]).filter JsPart.truthy).map JsPart.render

/-- JS `Array.prototype.join(':')`. -/
def joinColon : List String → String
  | [] => ""
  | [a] => a
  | a :: b :: rest => a ++ ":" ++ joinColon (b :: rest)

/-- The string `generateChunkId` feeds to the MD5 digest:
`parts.filter(Boolean).join(':')`. -/
def chunkIdKey (m : ChunkMetadata) (chunkIndex : Option Int) : String :=
  joinColon (chunkIdParts m chunkIndex)

/-- `generateChunkId(metadata, chunkIndex)`: the MD5 hex digest (external,
hence a parameter) of the joined part list. -/
def generateChunkId (md5 : String → String) (m : ChunkMetadata)
    (chunkIndex : Option Int) : String :=
  md5 (chunkIdKey m chunkIndex)

/-! ## Oversize splitter (src/chunkers/chunkSplitter.ts) -/

/-- The sub-chunk built for the window `[startPos, endPos)` of `chunk`:
id suffixed with the sub-chunk ordinal, content the substring, metadata the
parent's with `lineStart` shifted by `Math.floor(startPos / 100)` and
`lineEnd` kept. -/
def subChunkAt (chunk : Chunk) (subChunkIndex : Nat) (startPos endPos : Int) :
    Chunk :=
  { id := chunk.id ++ "_sub" ++ jsIntToString subChunkIndex
    content := jsSubstring chunk.content startPos endPos
    metadata :=
      { chunk.metadata with
        lineStart := chunk.metadata.lineStart + Int.fdiv startPos 100
        lineEnd := chunk.metadata.lineEnd } }

/-- The `while (startPos < content.length)` loop of `splitOversizedChunk`,
with fuel: `none` means the loop ran `fuel` iterations without finishing. -/
def splitLoop (chunk : Chunk) (maxSize overlapSize : Int) :
    Nat → Int → Nat → Option (List Chunk)
  | 0, _, _ => none
  | fuel + 1, startPos, subChunkIndex =>
    if startPos < (chunk.content.length : Int) then
      let endPos : Int := min (startPos + maxSize) chunk.content.length
      let sub := subChunkAt chunk subChunkIndex startPos endPos
      if (chunk.content.length : Int) ≤ endPos then
        some [sub]
      else
        match splitLoop chunk maxSize overlapSize fuel
            (endPos - overlapSize) (subChunkIndex + 1) with
        | none => none
        | some rest => some (sub :: rest)
    else
      some []

/-- `splitOversizedChunk(chunk, maxSize, overlapSize)`. -/
def splitOversizedChunk (fuel : Nat) (chunk : Chunk)
    (maxSize overlapSize : Int) : Option (List Chunk) :=
  if (chunk.content.length : Int) ≤ maxSize then
    some [chunk]
  else
    splitLoop chunk maxSize overlapSize fuel 0 0

/-- `splitOversizedChunks(chunks, maxSize, overlapSize)`: splits each
oversized chunk, passes the others through, and counts the extra chunks
created. -/
def splitOversizedChunks (fuel : Nat) (chunks : List Chunk)
    (maxSize overlapSize : Int) : Option (List Chunk × Nat) :=
  match chunks with
  | [] => some ([], 0)
  | chunk :: rest =>
    match splitOversizedChunks fuel rest maxSize overlapSize with
    | none => none
    | some (restChunks, restCount) =>
      if maxSize < (chunk.content.length : Int) then
        match splitOversizedChunk fuel chunk maxSize overlapSize with
        | none => none
        | some subChunks =>
          some (subChunks ++ restChunks, (subChunks.length - 1) + restCount)
      else
        some (chunk :: restChunks, restCount)

/-! ## Chunk size filter of `IngestionPipeline.processFile`

After extraction, `processFile` does not split anything: it filters the
extracted chunks, keeping exactly those whose content length is at most
`MAX_CHUNK_SIZE`, and warns about the rest.  The kept chunks are then
embedded and upserted. -/

/-- `const MAX_CHUNK_SIZE = 30000` in `processFile`. -/
def MAX_CHUNK_SIZE : Nat := 30000

/-- The configured chunk-size default (`chunkSize` in src/config, default
1000); the pipeline never consults it when bounding chunks. -/
def defaultChunkSize : Nat := 1000

/-- The `validChunks = chunks.filter(chunk => chunk.content.length <=
MAX_CHUNK_SIZE)` step of `processFile`. -/
def processFileValidChunks (chunks : List Chunk) : List Chunk :=
  chunks.filter (fun chunk => decide (chunk.content.length ≤ MAX_CHUNK_SIZE))

/-! ## Error classifier (IngestionLogger: `IngestionStatus`, `categorizeError`) -/

/-- The `IngestionStatus` enum. -/
inductive IngStatus where
  | SUCCESS | SKIPPED | PARSE_ERROR | CHUNK_ERROR | EMBEDDING_ERROR
  | STORAGE_ERROR | RATE_LIMIT | TOKEN_LIMIT | UNKNOWN_ERROR
deriving DecidableEq, Repr

/-- `categorizeError`: ordered keyword match over the lowercased message,
first match wins, `UNKNOWN_ERROR` otherwise. -/
def categorizeError (message : String) : IngStatus :=
  let lowerMessage := jsToLower message
  if strIncludes lowerMessage "maximum context length" ||
      strIncludes lowerMessage "token" then .TOKEN_LIMIT
  else if strIncludes lowerMessage "rate limit" ||
      strIncludes lowerMessage "429" then .RATE_LIMIT
  else if strIncludes lowerMessage "parse" ||
      strIncludes lowerMessage "syntax" then .PARSE_ERROR
  else if strIncludes lowerMessage "chunk" then .CHUNK_ERROR
  else if strIncludes lowerMessage "embed" then .EMBEDDING_ERROR
  else if strIncludes lowerMessage "chroma" ||
      strIncludes lowerMessage "upsert" then .STORAGE_ERROR
  else .UNKNOWN_ERROR

/-! ## Hash tracker (HashTracker: `hasFileChanged`, `updateFile`)

The filesystem is a parameter: `FileSys` maps a path to the current stat +
content of the file, `none` when the path does not exist, in which case
`fs.stat` / `fs.readFile` reject and the model returns `Except.error`.
The SHA-256 digest of `calculateFileHash` is external (`crypto`), so it is
a parameter as well.  The cache `Map` is modelled as a function. -/

/-- What the tracker reads of a file: `stat` result (`mtimeMs`) and content. -/
structure FileData where
  mtimeMs : Int
  content : String
deriving DecidableEq, Repr

/-- The filesystem as the tracker sees it. -/
def FileSys : Type := String → Option FileData

/-- A rejected filesystem promise (ENOENT on `stat`/`readFile`). -/
inductive FsErr where
  | enoent (path : String)
deriving DecidableEq, Repr

/-- A `FileHashRecord` of the cache. -/
structure FileHashRecord where
  path : String
  hash : String
  lastModified : Int
  chunkCount : Nat
deriving DecidableEq, Repr

/-- The cache's `files` map. -/
def HashCache : Type := String → Option FileHashRecord

/-- `HashTracker.hasFileChanged(path)`: stats the file first (rejecting if
it is missing), then reports changed when no record is cached or the stat's
`mtimeMs` is strictly newer than the cached `lastModified`. -/
def hasFileChanged (fs : FileSys) (cache : HashCache) (path : String) :
    Except FsErr Bool :=
  match fs path with
  | none => .error (.enoent path)
  | some stats =>
    match cache path with
    | none => .ok true
    | some record => .ok (decide (record.lastModified < stats.mtimeMs))

/-- `HashTracker.calculateFileHash(path)`: SHA-256 (external digest
parameter) of the file's content. -/
def calculateFileHash (sha256 : String → String) (fs : FileSys)
    (path : String) : Except FsErr String :=
  match fs path with
  | none => .error (.enoent path)
  | some stats => .ok (sha256 stats.content)

/-- `HashTracker.updateFile(path, chunkCount)`: stats and hashes the file,
then stores a fresh record under `path`. -/
def updateFile (sha256 : String → String) (fs : FileSys) (cache : HashCache)
    (path : String) (chunkCount : Nat) : Except FsErr HashCache :=
  match fs path with
  | none => .error (.enoent path)
  | some stats =>
    .ok (fun q =>
      if q = path then
        some { path := path, hash := sha256 stats.content,
               lastModified := stats.mtimeMs, chunkCount := chunkCount }
      else cache q)

/-! ## Batch orchestrator (IngestionPipeline.ingest)

The per-file task: check `hasFileChanged`; if unchanged, a skipped outcome;
otherwise run `processFile` (external parse + chunk + embed + upsert,
modelled by a parameter giving the chunk count or a thrown error per path),
call `updateFile` only when at least one chunk was produced, and report a
processed outcome.  Any exception inside the task (a rejected stat, the
processing itself, the update) is caught at the task boundary and becomes
an error outcome.  `ingest` folds the task over the discovered files —
batching and bounded concurrency only schedule these independent per-file
tasks, each of which touches the shared cache at its own path only, so the
sequential fold is the faithful order-insensitive model — and accumulates
the aggregate counts. -/

/-- The classified per-file result inside `ingest`. -/
inductive FileOutcome where
  | processed (chunkCount : Nat)
  | skipped
  | errored (message : String)
deriving DecidableEq, Repr

/-- What `processFile` does on one changed file, abstracted to what `ingest`
observes: the number of chunks created and upserted, or a thrown error. -/
def ProcessModel : Type := String → Except String Nat

/-- The body of the per-file task of `ingest` (the `try`/`catch` around
`hasFileChanged` / `processFile` / `updateFile`). -/
def runFileTask (sha256 : String → String) (fs : FileSys)
    (proc : ProcessModel) (cache : HashCache) (path : String) :
    FileOutcome × HashCache :=
  match hasFileChanged fs cache path with
  | .error (.enoent p) => (.errored ("ENOENT: " ++ p), cache)
  | .ok false => (.skipped, cache)
  | .ok true =>
    match proc path with
    | .error msg => (.errored msg, cache)
    | .ok chunkCount =>
      if 0 < chunkCount then
        match updateFile sha256 fs cache path chunkCount with
        | .error (.enoent p) => (.errored ("ENOENT: " ++ p), cache)
        | .ok cache' => (.processed chunkCount, cache')
      else
        (.processed chunkCount, cache)

/-- The aggregate counts `ingest` returns (duration not modelled). -/
structure IngestionResult where
  filesProcessed : Nat
  filesSkipped : Nat
  chunksCreated : Nat
  errors : Nat
deriving DecidableEq, Repr

/-- How one outcome updates the aggregate counts. -/
def tallyOutcome (o : FileOutcome) (r : IngestionResult) : IngestionResult :=
  match o with
  | .processed n =>
    { r with filesProcessed := r.filesProcessed + 1,
             chunksCreated := r.chunksCreated + n }
  | .skipped => { r with filesSkipped := r.filesSkipped + 1 }
  | .errored _ => { r with errors := r.errors + 1 }

/-- `ingest` over the discovered file list: run every per-file task,
threading the cache, and accumulate the counts. -/
def ingestFiles (sha256 : String → String) (fs : FileSys)
    (proc : ProcessModel) : List String → HashCache →
    IngestionResult × HashCache
  | [], cache => (⟨0, 0, 0, 0⟩, cache)
  | path :: rest, cache =>
    let step := runFileTask sha256 fs proc cache path
    let restRun := ingestFiles sha256 fs proc rest step.2
    (tallyOutcome step.1 restRun.1, restRun.2)

/-! ## Derived notions used by the statements -/

/-- Component-wise sum of two aggregate results. -/
def resAdd (r s : IngestionResult) : IngestionResult :=
  ⟨r.filesProcessed + s.filesProcessed, r.filesSkipped + s.filesSkipped,
   r.chunksCreated + s.chunksCreated, r.errors + s.errors⟩

/-- The cache holds a fingerprint for `p` that is at least as new as the
file's current stat, so `hasFileChanged` reports `false`. -/
def cacheFresh (fs : FileSys) (cache : HashCache) (p : String) : Prop :=
  ∃ st r, fs p = some st ∧ cache p = some r ∧ st.mtimeMs ≤ r.lastModified

/-- Concatenation of sub-chunk contents after dropping the first `o`
characters (the carried-over overlap) of every one of them. -/
def dropOverlapConcat (o : Nat) (ls : List (List Char)) : List Char :=
  (ls.map (List.drop o)).flatten

/-- Concatenation of the sub-chunk contents with the `o`-character overlaps
removed: the first content whole, each later one without its first `o`
characters. -/
def overlapConcat (o : Nat) : List (List Char) → List Char
  | [] => []
  | h :: t => h ++ dropOverlapConcat o t

/-- An optional string field is JS-falsy: absent, or present but empty.
`.filter(Boolean)` drops exactly these. -/
def optFalsy (o : Option String) : Prop :=
  o = none ∨ o = some ""

/-- Every keyword `categorizeError` tests the lowercased message against. -/
def classifierKeywords : List String :=
  ["maximum context length", "token", "rate limit", "429",
   "parse", "syntax", "chunk", "embed", "chroma", "upsert"]

/-! ## Concrete fixtures for witnesses and counterexamples -/

/-- A representative metadata value. -/
def metaBase : ChunkMetadata :=
  { absolutePath := "/repo/gsrc/acme/pc/Foo.gs"
    relativePath := "acme/pc/Foo.gs"
    pkg := some "acme.pc"
    className := some "Foo"
    methodName := some "run"
    chunkType := .method
    language := "gosu"
    lineStart := 10
    lineEnd := 42
    contentHash := "0123456789abcdef0123456789abcdef"
    }

/-- `metaBase` with an empty class name (a JS-falsy field value). -/
def metaEmptyClass : ChunkMetadata := { metaBase with className := some "" }

/-- `metaBase` with the class name absent. -/
def metaNoClass : ChunkMetadata := { metaBase with className := none }

/-- A ten-character chunk. -/
def chunkTen : Chunk := ⟨"chunk1", "abcdefghij".data, metaBase⟩

/-- A two-character chunk, the non-termination fixture. -/
def chunkAB : Chunk := ⟨"tiny", "ab".data, metaBase⟩

/-- A 2000-character chunk: over the configured chunk size, far under
`MAX_CHUNK_SIZE`. -/
def chunkMid : Chunk := ⟨"mid", List.replicate 2000 'a', metaBase⟩

/-- A 30001-character chunk: one over `MAX_CHUNK_SIZE`. -/
def chunkBig : Chunk := ⟨"big", List.replicate 30001 'a', metaBase⟩

/-- The split of `chunkTen` at `maxSize = 4`, `overlapSize = 1`. -/
def csTen : List Chunk := (splitOversizedChunk 10 chunkTen 4 1).getD []

/-- The first sub-chunk of that split. -/
def subTen : Chunk := csTen.headD chunkTen

/-- A three-file filesystem. -/
def fsFix : FileSys := fun p =>
  if p = "a.gs" then some ⟨5, "class A {}"⟩
  else if p = "b.gs" then some ⟨7, "class B {}"⟩
  else if p = "c.gs" then some ⟨9, "class C {}"⟩
  else none

/-- The empty hash cache. -/
def cacheEmpty : HashCache := fun _ => none

/-- A cache that has a (stale) fingerprint for a path missing on disk. -/
def cacheStale : HashCache := fun p =>
  if p = "gone.gs" then some ⟨"gone.gs", "h", 3, 1⟩ else none

/-- A stand-in for the external SHA-256 digest parameter. -/
def shaFix : String → String := fun s => "sha256:" ++ s

/-- Processing that always succeeds with two chunks. -/
def procTwo : ProcessModel := fun _ => .ok 2

/-- Processing that always succeeds but extracts zero chunks. -/
def procZero : ProcessModel := fun _ => .ok 0

/-- Processing that throws on `b.gs` and succeeds elsewhere. -/
def procErrAtB : ProcessModel := fun p =>
  if p = "b.gs" then .error "parse blew up" else .ok 3

/-! # Theorems -/

/-! ## C10: `hasFileChanged` stats before consulting the cache -/

/-- C10: for a path missing on the filesystem, `hasFileChanged` does not
return a boolean: it rejects with the filesystem error, whatever the cache
holds for that path. -/
theorem hasFileChanged_missing_rejects (fs : FileSys) (cache : HashCache)
    (path : String) (h : fs path = none) :
    hasFileChanged fs cache path = .error (.enoent path) := by
  simp [hasFileChanged, h]

/-- C10 witness: a missing path rejects both under the empty cache and
under a cache that still holds a fingerprint for it. -/
theorem hasFileChanged_missing_rejects_witness :
    hasFileChanged fsFix cacheEmpty "gone.gs" = .error (.enoent "gone.gs") ∧
    hasFileChanged fsFix cacheStale "gone.gs" = .error (.enoent "gone.gs") :=
  ⟨hasFileChanged_missing_rejects fsFix cacheEmpty "gone.gs" (by decide),
   hasFileChanged_missing_rejects fsFix cacheStale "gone.gs" (by decide)⟩

/-! ## C6: change-tracker convergence and the `hasChanged` condition -/

/-- C6: for an existing file, (1) an `updateFile` followed by a
`hasFileChanged` against the same stat returns `false`, and (2)
`hasFileChanged` answers `true` exactly when no fingerprint is cached or
the current `mtimeMs` is strictly newer than the cached `lastModified`. -/
theorem hashTracker_convergence (sha256 : String → String) (fs : FileSys)
    (cache : HashCache) (path : String) (st : FileData) (n : Nat)
    (hfs : fs path = some st) :
    (∃ cache', updateFile sha256 fs cache path n = .ok cache' ∧
      hasFileChanged fs cache' path = .ok false) ∧
    (∀ b, hasFileChanged fs cache path = .ok b →
      (b = true ↔ cache path = none ∨
        ∃ r, cache path = some r ∧ r.lastModified < st.mtimeMs)) := by
  constructor
  · refine ⟨fun q => if q = path then
        some ⟨path, sha256 st.content, st.mtimeMs, n⟩ else cache q, ?_, ?_⟩
    · simp [updateFile, hfs]
    · simp [hasFileChanged, hfs]
  · intro b hb
    simp only [hasFileChanged, hfs] at hb
    cases hc : cache path with
    | none =>
      rw [hc] at hb
      simp only [Except.ok.injEq] at hb
      simp [← hb]
    | some r =>
      rw [hc] at hb
      simp only [Except.ok.injEq] at hb
      subst hb
      simp only [decide_eq_true_eq, hc, reduceCtorEq, Option.some.injEq,
        false_or]
      constructor
      · intro h
        exact ⟨r, rfl, h⟩
      · rintro ⟨r', hr', hlt⟩
        cases hr'
        exact hlt

/-- C6 witness: updating `a.gs` and re-checking it immediately converges,
and the `hasChanged` condition reads back as stated, at a concrete cache. -/
theorem hashTracker_convergence_witness :
    (∃ cache', updateFile shaFix fsFix cacheEmpty "a.gs" 2 = .ok cache' ∧
      hasFileChanged fsFix cache' "a.gs" = .ok false) ∧
    (∀ b, hasFileChanged fsFix cacheEmpty "a.gs" = .ok b →
      (b = true ↔ cacheEmpty "a.gs" = none ∨
        ∃ r : FileHashRecord, cacheEmpty "a.gs" = some r ∧
          r.lastModified < (5 : Int))) :=
  hashTracker_convergence shaFix fsFix cacheEmpty "a.gs" ⟨5, "class A {}"⟩ 2
    (by decide)

/-! ## C8: classifier coverage -/

/-- A lowercase-invariant needle that is a prefix of `l` is still a prefix
after lowercasing `l`. -/
theorem startsWithChars_map_toLower (needle l : List Char)
    (hn : needle.map Char.toLower = needle)
    (h : startsWithChars needle l = true) :
    startsWithChars needle (l.map Char.toLower) = true := by
  induction needle generalizing l with
  | nil => simp [startsWithChars]
  | cons a as ih =>
    cases l with
    | nil => simp [startsWithChars] at h
    | cons b bs =>
      simp only [startsWithChars, Bool.and_eq_true, beq_iff_eq] at h
      obtain ⟨hab, htail⟩ := h
      subst hab
      have h1 : Char.toLower a = a ∧ as.map Char.toLower = as := by
        simpa using hn
      rw [List.map_cons, h1.1]
      simp only [startsWithChars, Bool.and_eq_true, beq_iff_eq]
      exact ⟨by simp, ih bs h1.2 htail⟩

/-- A lowercase-invariant needle contained in `l` is still contained after
lowercasing `l`. -/
theorem containsChars_map_toLower (needle l : List Char)
    (hn : needle.map Char.toLower = needle)
    (h : containsChars needle l = true) :
    containsChars needle (l.map Char.toLower) = true := by
  induction l with
  | nil => simpa [containsChars] using h
  | cons b bs ih =>
    simp only [containsChars, Bool.or_eq_true] at h
    simp only [List.map_cons, containsChars, Bool.or_eq_true]
    rcases h with h | h
    · exact Or.inl (by
        simpa using startsWithChars_map_toLower needle (b :: bs) hn h)
    · exact Or.inr (ih h)

/-- `message.includes(needle)` survives `message.toLowerCase()` when the
needle is lowercase-invariant. -/
theorem strIncludes_jsToLower (m needle : String)
    (hn : needle.data.map Char.toLower = needle.data)
    (h : strIncludes m needle = true) :
    strIncludes (jsToLower m) needle = true := by
  unfold strIncludes jsToLower
  exact containsChars_map_toLower needle.data m.data hn h

/-- C8 (amended): a message containing "maximum context length" classifies
TOKEN_LIMIT; a message containing "429" classifies RATE_LIMIT provided its
lowercased form matches neither token-limit keyword (those are tested
first); a message matching none of the keywords classifies UNKNOWN_ERROR. -/
theorem categorizeError_coverage (m : String) :
    (strIncludes m "maximum context length" = true →
      categorizeError m = .TOKEN_LIMIT) ∧
    (strIncludes m "429" = true →
      strIncludes (jsToLower m) "maximum context length" = false →
      strIncludes (jsToLower m) "token" = false →
      categorizeError m = .RATE_LIMIT) ∧
    ((∀ k ∈ classifierKeywords, strIncludes (jsToLower m) k = false) →
      categorizeError m = .UNKNOWN_ERROR) := by
  refine ⟨?_, ?_, ?_⟩
  · intro h
    have h' := strIncludes_jsToLower m "maximum context length" (by decide) h
    simp [categorizeError, h']
  · intro h h1 h2
    have h' := strIncludes_jsToLower m "429" (by decide) h
    simp [categorizeError, h', h1, h2]
  · intro hall
    have k1 := hall "maximum context length" (by decide)
    have k2 := hall "token" (by decide)
    have k3 := hall "rate limit" (by decide)
    have k4 := hall "429" (by decide)
    have k5 := hall "parse" (by decide)
    have k6 := hall "syntax" (by decide)
    have k7 := hall "chunk" (by decide)
    have k8 := hall "embed" (by decide)
    have k9 := hall "chroma" (by decide)
    have k10 := hall "upsert" (by decide)
    simp [categorizeError, k1, k2, k3, k4, k5, k6, k7, k8, k9, k10]

/-- C8 counterexample: this message contains "429" yet classifies
TOKEN_LIMIT, because the token keywords are tested first. -/
theorem categorizeError_429_not_rate_limit :
    categorizeError "token quota exhausted (HTTP 429)" =
      IngStatus.TOKEN_LIMIT ∧
    strIncludes "token quota exhausted (HTTP 429)" "429" = true ∧
    IngStatus.TOKEN_LIMIT ≠ IngStatus.RATE_LIMIT := by
  refine ⟨by decide, by decide, by decide⟩

/-! ## C4: identity builder determinism and field sensitivity -/

/-- Right cancellation of string append. -/
theorem strAppend_right_cancel (a b c : String) (h : a ++ c = b ++ c) :
    a = b := by
  apply String.ext
  have hd := congrArg String.data h
  simp only [String.data_append] at hd
  exact List.append_cancel_right hd

/-- Left cancellation of string append. -/
theorem strAppend_left_cancel (a b c : String) (h : a ++ b = a ++ c) :
    b = c := by
  apply String.ext
  have hd := congrArg String.data h
  simp only [String.data_append] at hd
  exact List.append_cancel_left hd

/-- `join(':')` on a list with at least one later element. -/
theorem joinColon_cons (a : String) (l : List String) (h : l ≠ []) :
    joinColon (a :: l) = a ++ ":" ++ joinColon l := by
  cases l with
  | nil => exact absurd rfl h
  | cons b t => rfl

/-- Length of a colon join: the summed lengths plus one separator between
consecutive elements. -/
theorem joinColon_length (l : List String) :
    (joinColon l).length = (l.map String.length).sum + (l.length - 1) := by
  induction l with
  | nil => simp [joinColon]
  | cons a t ih =>
    cases t with
    | nil => simp [joinColon]
    | cons b t2 =>
      rw [joinColon_cons a (b :: t2) (by simp)]
      have hsep : (":" : String).length = 1 := rfl
      simp only [String.length_append, hsep, List.map_cons, List.sum_cons,
        List.length_cons] at *
      omega

/-- Two joins differing in exactly one element differ. -/
theorem joinColon_middle_ne (A B : List String) (x y : String) (hxy : x ≠ y) :
    joinColon (A ++ x :: B) ≠ joinColon (A ++ y :: B) := by
  induction A with
  | nil =>
    cases B with
    | nil => simpa [joinColon] using hxy
    | cons b t =>
      intro h
      rw [List.nil_append, List.nil_append,
        joinColon_cons x (b :: t) (by simp),
        joinColon_cons y (b :: t) (by simp)] at h
      have h1 : x ++ ":" = y ++ ":" := strAppend_right_cancel _ _ _ h
      exact hxy (strAppend_right_cancel _ _ _ h1)
  | cons a A ih =>
    intro h
    rw [List.cons_append, List.cons_append,
      joinColon_cons a (A ++ x :: B) (by simp),
      joinColon_cons a (A ++ y :: B) (by simp)] at h
    exact ih (strAppend_left_cancel _ _ _ h)

/-- Inserting a nonempty element into a join changes it. -/
theorem joinColon_insert_ne (A B : List String) (x : String) (hx : x ≠ "") :
    joinColon (A ++ B) ≠ joinColon (A ++ x :: B) := by
  intro h
  have hxlen : 0 < x.length := by
    cases x with
    | mk d =>
      cases d with
      | nil => exact absurd rfl hx
      | cons c t => simp [String.length]
  have hlen := congrArg String.length h
  rw [joinColon_length, joinColon_length] at hlen
  simp only [List.map_append, List.map_cons, List.sum_append, List.sum_cons,
    List.length_append, List.length_cons] at hlen
  omega

/-- The decimal worker is fuel-insensitive once the fuel exceeds the input. -/
theorem natDecimalGo_congr :
    ∀ f1 f2 n, n < f1 → n < f2 → natDecimalGo f1 n = natDecimalGo f2 n := by
  intro f1
  induction f1 with
  | zero => intro f2 n h1; omega
  | succ f1 ih =>
    intro f2 n h1 h2
    cases f2 with
    | zero => omega
    | succ f2 =>
      simp only [natDecimalGo]
      by_cases h10 : n < 10
      · rw [if_pos h10, if_pos h10]
      · rw [if_neg h10, if_neg h10, ih f2 (n / 10) (by omega) (by omega)]

/-- The decimal worker never returns the empty list when fuelled. -/
theorem natDecimalGo_ne_nil (f n : Nat) (h : n < f) : natDecimalGo f n ≠ [] := by
  cases f with
  | zero => omega
  | succ f =>
    simp only [natDecimalGo]
    by_cases h10 : n < 10
    · rw [if_pos h10]; simp
    · rw [if_neg h10]; simp

/-- No digit character is a dash. -/
theorem digitChar10_ne_dash (d : Nat) : digitChar10 d ≠ '-' := by
  unfold digitChar10
  split <;> decide

/-- The decimal worker never emits a dash. -/
theorem natDecimalGo_no_dash :
    ∀ f n, n < f → '-' ∉ natDecimalGo f n := by
  intro f
  induction f with
  | zero => intro n h; omega
  | succ f ih =>
    intro n h
    simp only [natDecimalGo]
    by_cases h10 : n < 10
    · rw [if_pos h10]
      simp only [List.mem_singleton]
      exact fun hc => digitChar10_ne_dash n hc.symm
    · rw [if_neg h10]
      simp only [List.mem_append, List.mem_singleton]
      rintro (hc | hc)
      · exact ih (n / 10) (by omega) hc
      · exact digitChar10_ne_dash (n % 10) hc.symm

/-- Digit characters are distinct for distinct digits. -/
theorem digitChar10_inj : ∀ a < 10, ∀ b < 10,
    digitChar10 a = digitChar10 b → a = b := by decide

/-- The decimal worker is injective under sufficient shared fuel. -/
theorem natDecimalGo_inj :
    ∀ f a b, a < f → b < f → natDecimalGo f a = natDecimalGo f b → a = b := by
  intro f
  induction f with
  | zero => intro a b ha; omega
  | succ f ih =>
    intro a b ha hb h
    simp only [natDecimalGo] at h
    by_cases ha10 : a < 10 <;> by_cases hb10 : b < 10
    · rw [if_pos ha10, if_pos hb10] at h
      simp only [List.cons.injEq, and_true] at h
      exact digitChar10_inj a ha10 b hb10 h
    · rw [if_pos ha10, if_neg hb10] at h
      have hlen := congrArg List.length h
      have hne := natDecimalGo_ne_nil f (b / 10) (by omega)
      cases hg : natDecimalGo f (b / 10) with
      | nil => exact absurd hg hne
      | cons c t => rw [hg] at hlen; simp at hlen
    · rw [if_neg ha10, if_pos hb10] at h
      have hlen := congrArg List.length h
      have hne := natDecimalGo_ne_nil f (a / 10) (by omega)
      cases hg : natDecimalGo f (a / 10) with
      | nil => exact absurd hg hne
      | cons c t => rw [hg] at hlen; simp at hlen
    · rw [if_neg ha10, if_neg hb10] at h
      obtain ⟨h1, h2⟩ := List.append_inj' h rfl
      have hdiv : a / 10 = b / 10 := ih _ _ (by omega) (by omega) h1
      have hmod : a % 10 = b % 10 := by
        simp only [List.cons.injEq, and_true] at h2
        exact digitChar10_inj (a % 10) (by omega) (b % 10) (by omega) h2
      omega

/-- `natDecimal` is injective. -/
theorem natDecimal_inj (a b : Nat) (h : natDecimal a = natDecimal b) :
    a = b := by
  unfold natDecimal at h
  have ha := natDecimalGo_congr (a + 1) (a + b + 1) a (by omega) (by omega)
  have hb := natDecimalGo_congr (b + 1) (a + b + 1) b (by omega) (by omega)
  rw [ha, hb] at h
  exact natDecimalGo_inj (a + b + 1) a b (by omega) (by omega) h

/-- `String.mk` of a nonempty list is not the empty string. -/
theorem stringMk_ne_empty (l : List Char) (h : l ≠ []) :
    String.mk l ≠ "" := by
  intro he
  exact h (by simpa using congrArg String.data he)

/-- JS never renders a number as the empty string. -/
theorem jsIntToString_ne_empty (n : Int) : jsIntToString n ≠ "" := by
  unfold jsIntToString
  split
  · intro he
    have hd := congrArg String.data he
    simp [String.data_append] at hd
  · exact stringMk_ne_empty _ (natDecimalGo_ne_nil _ _ (by omega))

/-- JS number rendering is injective on integral values. -/
theorem jsIntToString_inj (a b : Int) (h : jsIntToString a = jsIntToString b) :
    a = b := by
  unfold jsIntToString at h
  by_cases ha : a < 0 <;> by_cases hb : b < 0
  · rw [if_pos ha, if_pos hb] at h
    have hd := congrArg String.data h
    simp only [String.data_append] at hd
    have hl := List.append_cancel_left hd
    have := natDecimal_inj _ _ hl
    omega
  · exfalso
    rw [if_pos ha, if_neg hb] at h
    have hd := congrArg String.data h
    simp only [String.data_append] at hd
    have hmem : '-' ∈ natDecimal b.toNat := by
      rw [show (natDecimal b.toNat : List Char) =
        (String.mk (natDecimal b.toNat)).data from rfl, ← hd]
      simp
    exact natDecimalGo_no_dash _ _ (by omega) hmem
  · exfalso
    rw [if_neg ha, if_pos hb] at h
    have hd := congrArg String.data h
    simp only [String.data_append] at hd
    have hmem : '-' ∈ natDecimal a.toNat := by
      rw [show (natDecimal a.toNat : List Char) =
        (String.mk (natDecimal a.toNat)).data from rfl, hd]
      simp
    exact natDecimalGo_no_dash _ _ (by omega) hmem
  · rw [if_neg ha, if_neg hb] at h
    have hd := congrArg String.data h
    have := natDecimal_inj _ _ hd
    omega

/-- A truthy part renders to a nonempty string. -/
theorem render_ne_empty_of_truthy (x : JsPart) (h : x.truthy = true) :
    x.render ≠ "" := by
  cases x with
  | str s =>
    simp only [JsPart.truthy, decide_eq_true_eq] at h
    simpa [JsPart.render] using h
  | num n => exact jsIntToString_ne_empty n
  | undef => simp [JsPart.truthy] at h

/-- An optional string part is truthy exactly when the field is not
JS-falsy. -/
theorem optStr_truthy_iff (o : Option String) :
    (optStr o).truthy = true ↔ ¬ optFalsy o := by
  cases o with
  | none => simp [optStr, JsPart.truthy, optFalsy]
  | some s => simp [optStr, JsPart.truthy, optFalsy]

/-- Distinct truthy optional string fields render differently. -/
theorem optStr_render_ne (v w : Option String) (hvw : v ≠ w)
    (hv : (optStr v).truthy = true) (hw : (optStr w).truthy = true) :
    (optStr v).render ≠ (optStr w).render := by
  cases v <;> cases w <;>
    simp_all [optStr, JsPart.truthy, JsPart.render]

/-- An index part is truthy exactly when an index was passed. -/
theorem indexPart_truthy_iff (j : Option Int) :
    (indexPart j).truthy = true ↔ j ≠ none := by
  cases j with
  | none => simp [indexPart, JsPart.truthy]
  | some a => simp [indexPart, JsPart.truthy, jsIntToString_ne_empty a]

/-- Distinct present indexes render differently. -/
theorem indexPart_render_ne (j k : Option Int) (hjk : j ≠ k)
    (hj : (indexPart j).truthy = true) (hk : (indexPart k).truthy = true) :
    (indexPart j).render ≠ (indexPart k).render := by
  cases j with
  | none => simp [indexPart, JsPart.truthy] at hj
  | some a =>
    cases k with
    | none => simp [indexPart, JsPart.truthy] at hk
    | some b =>
      simp only [indexPart, JsPart.render, ne_eq]
      intro h
      exact hjk (by rw [jsIntToString_inj a b h])

/-- `chunkTypeString` is injective. -/
theorem chunkTypeString_inj (a b : ChunkType)
    (h : chunkTypeString a = chunkTypeString b) : a = b := by
  cases a <;> cases b <;> first | rfl | exact absurd h (by decide)

/-- No chunk type renders empty. -/
theorem chunkTypeString_ne_empty (a : ChunkType) : chunkTypeString a ≠ "" := by
  cases a <;> decide

/-- The filtered, rendered part list splits around any one position. -/
theorem filterParts_split (pre post : List JsPart) (z : JsPart) :
    ((pre ++ z :: post).filter JsPart.truthy).map JsPart.render =
    (pre.filter JsPart.truthy).map JsPart.render ++
      ((if z.truthy then [z.render] else []) ++
        (post.filter JsPart.truthy).map JsPart.render) := by
  rw [List.filter_append, List.filter_cons]
  by_cases hz : z.truthy = true
  · rw [if_pos hz, if_pos hz]
    simp [List.map_append]
  · rw [if_neg hz, if_neg hz]
    simp [List.map_append]

/-- Master sensitivity lemma: changing one part of the id's part list while
the rest is fixed changes the joined key, provided the two part values do
not both get dropped by `.filter(Boolean)` and truthy values render
differently. -/
theorem keyParts_mid_ne (pre post : List JsPart) (x y : JsPart)
    (hrend : x.truthy = true → y.truthy = true → x.render ≠ y.render)
    (hboth : x.truthy = true ∨ y.truthy = true) :
    joinColon (((pre ++ x :: post).filter JsPart.truthy).map JsPart.render) ≠
    joinColon (((pre ++ y :: post).filter JsPart.truthy).map JsPart.render) := by
  rw [filterParts_split pre post x, filterParts_split pre post y]
  by_cases hx : x.truthy = true <;> by_cases hy : y.truthy = true
  · rw [if_pos hx, if_pos hy]
    simp only [List.singleton_append]
    exact joinColon_middle_ne _ _ _ _ (hrend hx hy)
  · rw [if_pos hx, if_neg hy]
    simp only [List.singleton_append, List.nil_append]
    exact (joinColon_insert_ne _ _ _ (render_ne_empty_of_truthy x hx)).symm
  · rw [if_neg hx, if_pos hy]
    simp only [List.singleton_append, List.nil_append]
    exact joinColon_insert_ne _ _ _ (render_ne_empty_of_truthy y hy)
  · rcases hboth with h | h
    · exact absurd h hx
    · exact absurd h hy

/-- C4 (amended): `generateChunkId` is a pure deterministic function, and
changing any single id-relevant input field changes the pre-hash identity
key (hence the id, up to MD5 collisions of distinct keys) — provided the
old and new values of an optional string field are not both JS-falsy
(absent/empty, which `.filter(Boolean)` erases identically), and provided a
content-hash change shows in its first 16 characters, the only part of the
hash that participates; a change beyond the 16th character leaves the key
unchanged. -/
theorem generateChunkId_sensitivity (m : ChunkMetadata) (i : Option Int) :
    (∀ md5 : String → String,
      generateChunkId md5 m i = generateChunkId md5 m i) ∧
    (∀ v : String, v ≠ m.relativePath →
      chunkIdKey { m with relativePath := v } i ≠ chunkIdKey m i) ∧
    (∀ v : Option String, v ≠ m.pkg →
      ¬(optFalsy v ∧ optFalsy m.pkg) →
      chunkIdKey { m with pkg := v } i ≠ chunkIdKey m i) ∧
    (∀ v : Option String, v ≠ m.className →
      ¬(optFalsy v ∧ optFalsy m.className) →
      chunkIdKey { m with className := v } i ≠ chunkIdKey m i) ∧
    (∀ v : Option String, v ≠ m.methodName →
      ¬(optFalsy v ∧ optFalsy m.methodName) →
      chunkIdKey { m with methodName := v } i ≠ chunkIdKey m i) ∧
    (∀ t : ChunkType, t ≠ m.chunkType →
      chunkIdKey { m with chunkType := t } i ≠ chunkIdKey m i) ∧
    (∀ v : Int, v ≠ m.lineStart →
      chunkIdKey { m with lineStart := v } i ≠ chunkIdKey m i) ∧
    (∀ v : Int, v ≠ m.lineEnd →
      chunkIdKey { m with lineEnd := v } i ≠ chunkIdKey m i) ∧
    (∀ h : String, hashFirst16 h ≠ hashFirst16 m.contentHash →
      chunkIdKey { m with contentHash := h } i ≠ chunkIdKey m i) ∧
    (∀ h : String, hashFirst16 h = hashFirst16 m.contentHash →
      chunkIdKey { m with contentHash := h } i = chunkIdKey m i) ∧
    (∀ j : Option Int, j ≠ i → chunkIdKey m j ≠ chunkIdKey m i) := by
  refine ⟨fun _ => rfl, ?_, ?_, ?_, ?_, ?_, ?_, ?_, ?_, ?_, ?_⟩
  · intro v hne
    refine keyParts_mid_ne []
      [optStr m.pkg, optStr m.className, optStr m.methodName,
       JsPart.str (chunkTypeString m.chunkType), JsPart.num m.lineStart,
       JsPart.num m.lineEnd, JsPart.str (hashFirst16 m.contentHash),
       indexPart i]
      (JsPart.str v) (JsPart.str m.relativePath)
      (fun _ _ => by simpa [JsPart.render] using hne) ?_
    rcases eq_or_ne v "" with hv | hv
    · right
      have hr : m.relativePath ≠ "" := fun hh => hne (by rw [hv, hh])
      simp [JsPart.truthy, hr]
    · left
      simp [JsPart.truthy, hv]
  · intro v hne hnb
    refine keyParts_mid_ne [JsPart.str m.relativePath]
      [optStr m.className, optStr m.methodName,
       JsPart.str (chunkTypeString m.chunkType), JsPart.num m.lineStart,
       JsPart.num m.lineEnd, JsPart.str (hashFirst16 m.contentHash),
       indexPart i]
      (optStr v) (optStr m.pkg)
      (fun hv hw => optStr_render_ne v m.pkg hne hv hw) ?_
    rcases not_and_or.mp hnb with h | h
    · exact Or.inl ((optStr_truthy_iff v).mpr h)
    · exact Or.inr ((optStr_truthy_iff m.pkg).mpr h)
  · intro v hne hnb
    refine keyParts_mid_ne [JsPart.str m.relativePath, optStr m.pkg]
      [optStr m.methodName,
       JsPart.str (chunkTypeString m.chunkType), JsPart.num m.lineStart,
       JsPart.num m.lineEnd, JsPart.str (hashFirst16 m.contentHash),
       indexPart i]
      (optStr v) (optStr m.className)
      (fun hv hw => optStr_render_ne v m.className hne hv hw) ?_
    rcases not_and_or.mp hnb with h | h
    · exact Or.inl ((optStr_truthy_iff v).mpr h)
    · exact Or.inr ((optStr_truthy_iff m.className).mpr h)
  · intro v hne hnb
    refine keyParts_mid_ne
      [JsPart.str m.relativePath, optStr m.pkg, optStr m.className]
      [JsPart.str (chunkTypeString m.chunkType), JsPart.num m.lineStart,
       JsPart.num m.lineEnd, JsPart.str (hashFirst16 m.contentHash),
       indexPart i]
      (optStr v) (optStr m.methodName)
      (fun hv hw => optStr_render_ne v m.methodName hne hv hw) ?_
    rcases not_and_or.mp hnb with h | h
    · exact Or.inl ((optStr_truthy_iff v).mpr h)
    · exact Or.inr ((optStr_truthy_iff m.methodName).mpr h)
  · intro t hne
    refine keyParts_mid_ne
      [JsPart.str m.relativePath, optStr m.pkg, optStr m.className,
       optStr m.methodName]
      [JsPart.num m.lineStart, JsPart.num m.lineEnd,
       JsPart.str (hashFirst16 m.contentHash), indexPart i]
      (JsPart.str (chunkTypeString t))
      (JsPart.str (chunkTypeString m.chunkType))
      (fun _ _ => by
        simpa [JsPart.render] using
          fun hEq => hne (chunkTypeString_inj t m.chunkType hEq)) ?_
    left
    simp [JsPart.truthy, chunkTypeString_ne_empty t]
  · intro v hne
    refine keyParts_mid_ne
      [JsPart.str m.relativePath, optStr m.pkg, optStr m.className,
       optStr m.methodName, JsPart.str (chunkTypeString m.chunkType)]
      [JsPart.num m.lineEnd, JsPart.str (hashFirst16 m.contentHash),
       indexPart i]
      (JsPart.num v) (JsPart.num m.lineStart)
      (fun _ _ h => hne (jsIntToString_inj v m.lineStart h)) ?_
    rcases eq_or_ne v 0 with hv | hv
    · right
      have hr : m.lineStart ≠ 0 := fun hh => hne (by rw [hv, hh])
      simp [JsPart.truthy, hr]
    · left
      simp [JsPart.truthy, hv]
  · intro v hne
    refine keyParts_mid_ne
      [JsPart.str m.relativePath, optStr m.pkg, optStr m.className,
       optStr m.methodName, JsPart.str (chunkTypeString m.chunkType),
       JsPart.num m.lineStart]
      [JsPart.str (hashFirst16 m.contentHash), indexPart i]
      (JsPart.num v) (JsPart.num m.lineEnd)
      (fun _ _ h => hne (jsIntToString_inj v m.lineEnd h)) ?_
    rcases eq_or_ne v 0 with hv | hv
    · right
      have hr : m.lineEnd ≠ 0 := fun hh => hne (by rw [hv, hh])
      simp [JsPart.truthy, hr]
    · left
      simp [JsPart.truthy, hv]
  · intro h hne
    refine keyParts_mid_ne
      [JsPart.str m.relativePath, optStr m.pkg, optStr m.className,
       optStr m.methodName, JsPart.str (chunkTypeString m.chunkType),
       JsPart.num m.lineStart, JsPart.num m.lineEnd]
      [indexPart i]
      (JsPart.str (hashFirst16 h)) (JsPart.str (hashFirst16 m.contentHash))
      (fun _ _ => by simpa [JsPart.render] using hne) ?_
    rcases eq_or_ne (hashFirst16 h) "" with hv | hv
    · right
      have hr : hashFirst16 m.contentHash ≠ "" := fun hh =>
        hne (by rw [hv, hh])
      simp [JsPart.truthy, hr]
    · left
      simp [JsPart.truthy, hv]
  · intro h hEq
    simp [chunkIdKey, chunkIdParts, hEq]
  · intro j hne
    refine keyParts_mid_ne
      [JsPart.str m.relativePath, optStr m.pkg, optStr m.className,
       optStr m.methodName, JsPart.str (chunkTypeString m.chunkType),
       JsPart.num m.lineStart, JsPart.num m.lineEnd,
       JsPart.str (hashFirst16 m.contentHash)]
      [] (indexPart j) (indexPart i)
      (fun hj hk => indexPart_render_ne j i hne hj hk) ?_
    cases j with
    | none =>
      right
      exact (indexPart_truthy_iff i).mpr (fun hi => hne (by rw [hi]))
    | some a =>
      left
      exact (indexPart_truthy_iff (some a)).mpr (by simp)

/-- C4 counterexample: an empty class name and an absent class name are
both erased by `.filter(Boolean)`, so the pre-hash key — and therefore the
MD5 id — is identical although exactly one input field (`className`)
changed. -/
theorem chunkId_empty_className_collision :
    chunkIdKey metaEmptyClass none = chunkIdKey metaNoClass none ∧
    metaEmptyClass.className ≠ metaNoClass.className ∧
    metaEmptyClass.relativePath = metaNoClass.relativePath ∧
    metaEmptyClass.pkg = metaNoClass.pkg ∧
    metaEmptyClass.methodName = metaNoClass.methodName ∧
    metaEmptyClass.chunkType = metaNoClass.chunkType ∧
    metaEmptyClass.language = metaNoClass.language ∧
    metaEmptyClass.lineStart = metaNoClass.lineStart ∧
    metaEmptyClass.lineEnd = metaNoClass.lineEnd ∧
    metaEmptyClass.contentHash = metaNoClass.contentHash ∧
    metaEmptyClass.absolutePath = metaNoClass.absolutePath := by
  refine ⟨by decide, by decide, by decide, by decide, by decide, by decide,
    by decide, by decide, by decide, by decide, by decide⟩

/-! ## C3 / C5 / C9: the oversize splitter -/

/-- `substring` within bounds is plain take-then-drop. -/
theorem jsSubstring_eq_of_bounds (l : List Char) (a b : Int) (h0 : 0 ≤ a)
    (hab : a ≤ b) (hb : b ≤ (l.length : Int)) :
    jsSubstring l a b = (l.take b.toNat).drop a.toNat := by
  simp only [jsSubstring]
  have h1 : min (max a 0) (l.length : Int) = a := by omega
  have h2 : min (max b 0) (l.length : Int) = b := by omega
  rw [h1, h2]
  have h3 : max a b = b := by omega
  have h4 : min a b = a := by omega
  rw [h3, h4]

/-- `substring` over a `[s, e)` window given as naturals. -/
theorem jsSubstring_window (l : List Char) (s e : Nat) (hse : s ≤ e)
    (he : e ≤ l.length) :
    jsSubstring l (s : Int) (e : Int) = (l.take e).drop s := by
  have h := jsSubstring_eq_of_bounds l s e (by omega)
    (by exact_mod_cast hse) (by exact_mod_cast he)
  simpa using h

/-- The content of a windowed sub-chunk. -/
theorem subChunkAt_content (c : Chunk) (idx : Nat) (a b : Int) :
    (subChunkAt c idx a b).content = jsSubstring c.content a b := rfl

/-- Two adjacent windows of one list concatenate to the longer window. -/
theorem takeDropGlue (x : List Char) (s e1 : Nat) (h : s ≤ e1) :
    (x.take e1).drop s ++ x.drop e1 = x.drop s := by
  rw [List.drop_take]
  have hdd : x.drop e1 = (x.drop s).drop (e1 - s) := by
    rw [List.drop_drop]
    congr 1
    omega
  rw [hdd, List.take_append_drop]

/-- `getLast?` skips a cons onto a nonempty list. -/
theorem getLast?_cons_of_ne_nil {α : Type} (a : α) (l : List α) (h : l ≠ []) :
    (a :: l).getLast? = l.getLast? := by
  cases l with
  | nil => exact absurd rfl h
  | cons b t => rfl

/-- C3 core: with `maxSize = overlapSize = 1` on a two-character chunk the
loop recurses forever at `startPos = 0`; every finite fuel runs out. -/
theorem splitLoop_no_advance :
    ∀ fuel idx, splitLoop chunkAB 1 1 fuel 0 idx = none := by
  intro fuel
  induction fuel with
  | zero => intro idx; rfl
  | succ fuel ih =>
    intro idx
    have hlen : (chunkAB.content.length : Int) = 2 := by decide
    simp only [splitLoop, hlen]
    norm_num
    rw [ih (idx + 1)]

/-- C3: `splitOversizedChunk` has no guard for `overlapSize >= maxSize`:
on the two-character chunk with `maxSize = overlapSize = 1` the loop never
terminates — the fuelled embedding returns `none` for every fuel bound. -/
theorem splitOversizedChunk_overlap_diverges (fuel : Nat) :
    splitOversizedChunk fuel chunkAB 1 1 = none := by
  unfold splitOversizedChunk
  rw [if_neg (by decide)]
  exact splitLoop_no_advance fuel 0

/-- Loop invariant of the splitter for a well-configured overlap
(`0 ≤ O < M`): starting inside the content, the loop terminates within
`length - s` iterations; the first produced sub-chunk is the window at `s`;
dropping the first `O` characters of every produced sub-chunk after the
head and concatenating yields the content from the head window's end; all
windows are at most `M` wide; and the last window ends at the content's
end (its content is a suffix of the content). -/
theorem splitLoop_inv (c : Chunk) (M O : Int) (hM : 0 < M) (hO0 : 0 ≤ O)
    (hOM : O < M) :
    ∀ fuel (s : Nat) idx, s < c.content.length →
    c.content.length - s ≤ fuel →
    ∃ cs, splitLoop c M O fuel (s : Int) idx = some cs ∧
      cs = subChunkAt c idx (s : Int)
        ((min (s + M.toNat) c.content.length : Nat) : Int) :: cs.tail ∧
      dropOverlapConcat O.toNat (cs.tail.map Chunk.content) =
        c.content.drop (min (s + M.toNat) c.content.length) ∧
      (∀ x ∈ cs, x.content.length ≤ M.toNat) ∧
      ∃ xlast, cs.getLast? = some xlast ∧
        xlast.content.IsSuffix c.content := by
  intro fuel
  induction fuel with
  | zero => intro s idx hs hfuel; omega
  | succ fuel ih =>
    intro s idx hs hfuel
    have hcond : (s : Int) < (c.content.length : Int) := by exact_mod_cast hs
    have heN : min ((s : Int) + M) (c.content.length : Int) =
        ((min (s + M.toNat) c.content.length : Nat) : Int) := by omega
    have hsle : s < min (s + M.toNat) c.content.length := by omega
    have heL : min (s + M.toNat) c.content.length ≤ c.content.length := by
      omega
    have hwcontent : (subChunkAt c idx (s : Int)
        ((min (s + M.toNat) c.content.length : Nat) : Int)).content =
        (c.content.take (min (s + M.toNat) c.content.length)).drop s := by
      rw [subChunkAt_content]
      exact jsSubstring_window c.content s _ (le_of_lt hsle) heL
    simp only [splitLoop]
    rw [if_pos hcond, heN]
    by_cases hend : (c.content.length : Int) ≤
        ((min (s + M.toNat) c.content.length : Nat) : Int)
    · rw [if_pos hend]
      have heqL : min (s + M.toNat) c.content.length = c.content.length := by
        omega
      refine ⟨[subChunkAt c idx (s : Int)
        ((min (s + M.toNat) c.content.length : Nat) : Int)],
        rfl, rfl, ?_, ?_, ?_⟩
      · simp [dropOverlapConcat, heqL]
      · intro x hx
        simp only [List.mem_singleton] at hx
        subst hx
        rw [hwcontent]
        simp only [List.length_drop, List.length_take]
        omega
      · refine ⟨subChunkAt c idx (s : Int)
          ((min (s + M.toNat) c.content.length : Nat) : Int), by simp, ?_⟩
        rw [hwcontent, heqL, List.take_length]
        exact List.drop_suffix s c.content
    · rw [if_neg hend]
      have heMs : min (s + M.toNat) c.content.length = s + M.toNat := by omega
      have hsn : (((min (s + M.toNat) c.content.length : Nat) : Int) - O) =
          ((min (s + M.toNat) c.content.length - O.toNat : Nat) : Int) := by
        omega
      rw [hsn]
      have hs'lt : min (s + M.toNat) c.content.length - O.toNat <
          c.content.length := by omega
      have hfuel' : c.content.length -
          (min (s + M.toNat) c.content.length - O.toNat) ≤ fuel := by omega
      obtain ⟨cs', hrun, hhead, hdrop, hwid, hlast⟩ :=
        ih (min (s + M.toNat) c.content.length - O.toNat) (idx + 1)
          hs'lt hfuel'
      rw [hrun]
      refine ⟨subChunkAt c idx (s : Int)
        ((min (s + M.toNat) c.content.length : Nat) : Int) :: cs',
        rfl, rfl, ?_, ?_, ?_⟩
      · rw [hhead]
        simp only [List.tail_cons, dropOverlapConcat, List.map_cons,
          List.flatten_cons]
        have hw' : (subChunkAt c (idx + 1)
            ((min (s + M.toNat) c.content.length - O.toNat : Nat) : Int)
            ((min (min (s + M.toNat) c.content.length - O.toNat + M.toNat)
              c.content.length : Nat) : Int)).content =
            (c.content.take (min (min (s + M.toNat) c.content.length -
              O.toNat + M.toNat) c.content.length)).drop
              (min (s + M.toNat) c.content.length - O.toNat) := by
          rw [subChunkAt_content]
          exact jsSubstring_window c.content _ _ (by omega) (by omega)
        rw [hw', List.drop_drop]
        have hseq : min (s + M.toNat) c.content.length - O.toNat + O.toNat =
            min (s + M.toNat) c.content.length := by omega
        rw [hseq]
        have hdrop' := hdrop
        simp only [dropOverlapConcat] at hdrop'
        rw [hdrop']
        exact takeDropGlue c.content _ _ (by omega)
      · intro x hx
        rcases List.mem_cons.mp hx with hx | hx
        · subst hx
          rw [hwcontent]
          simp only [List.length_drop, List.length_take]
          omega
        · exact hwid x hx
      · obtain ⟨xl, hxl, hsuf⟩ := hlast
        refine ⟨xl, ?_, hsuf⟩
        rw [getLast?_cons_of_ne_nil _ _ (by rw [hhead]; simp)]
        exact hxl

/-- C5: with `0 < M`, `0 ≤ O < M` and fuel at least the content length,
a chunk at most `M` long is returned unchanged as a singleton; an oversized
chunk is split into nonempty windows of width at most `M` whose contents,
concatenated with the `O`-character overlaps removed, reconstruct the
content exactly, the last window ending at the content's end. -/
theorem splitOversizedChunk_correct (fuel : Nat) (c : Chunk) (M O : Int)
    (hM : 0 < M) (hO0 : 0 ≤ O) (hOM : O < M)
    (hfuel : c.content.length ≤ fuel) :
    ((c.content.length : Int) ≤ M →
      splitOversizedChunk fuel c M O = some [c]) ∧
    (M < (c.content.length : Int) →
      ∃ cs, splitOversizedChunk fuel c M O = some cs ∧ cs ≠ [] ∧
        (∀ x ∈ cs, x.content.length ≤ M.toNat) ∧
        overlapConcat O.toNat (cs.map Chunk.content) = c.content ∧
        ∃ xlast, cs.getLast? = some xlast ∧
          xlast.content.IsSuffix c.content) := by
  constructor
  · intro hle
    unfold splitOversizedChunk
    rw [if_pos hle]
  · intro hlt
    unfold splitOversizedChunk
    rw [if_neg (not_le.mpr hlt)]
    have hs0 : (0 : Nat) < c.content.length := by omega
    obtain ⟨cs, hrun, hhead, hdrop, hwid, hlast⟩ :=
      splitLoop_inv c M O hM hO0 hOM fuel 0 0 hs0 (by omega)
    have hrun' : splitLoop c M O fuel 0 0 = some cs := by
      rw [show ((0 : Nat) : Int) = (0 : Int) by norm_num] at hrun
      exact hrun
    refine ⟨cs, hrun', by rw [hhead]; simp, hwid, ?_, hlast⟩
    have heN0 : min (0 + M.toNat) c.content.length = M.toNat := by omega
    have hw0 : (subChunkAt c 0 ((0 : Nat) : Int)
        ((min (0 + M.toNat) c.content.length : Nat) : Int)).content =
        c.content.take M.toNat := by
      rw [subChunkAt_content,
        jsSubstring_window c.content 0 _ (by omega) (by omega),
        List.drop_zero, heN0]
    rw [hhead]
    simp only [overlapConcat, List.map_cons]
    rw [hw0]
    rw [heN0] at hdrop
    rw [hdrop]
    exact List.take_append_drop M.toNat c.content

/-- C5 witness: splitting ten characters with `maxSize = 4`, `overlap = 1`
behaves as the theorem states. -/
theorem splitOversizedChunk_correct_witness :
    (((chunkTen.content.length : Int) ≤ 4 →
      splitOversizedChunk 10 chunkTen 4 1 = some [chunkTen]) ∧
    ((4 : Int) < (chunkTen.content.length : Int) →
      ∃ cs, splitOversizedChunk 10 chunkTen 4 1 = some cs ∧ cs ≠ [] ∧
        (∀ x ∈ cs, x.content.length ≤ (4 : Int).toNat) ∧
        overlapConcat (1 : Int).toNat (cs.map Chunk.content) =
          chunkTen.content ∧
        ∃ xlast, cs.getLast? = some xlast ∧
          xlast.content.IsSuffix chunkTen.content)) :=
  splitOversizedChunk_correct 10 chunkTen 4 1 (by decide) (by decide)
    (by decide) (by decide)

/-- Every chunk the split loop emits carries the parent's metadata in every
field except `lineStart`. -/
theorem splitLoop_metadata (c : Chunk) (M O : Int) :
    ∀ fuel (s : Int) idx cs, splitLoop c M O fuel s idx = some cs →
    ∀ x ∈ cs,
      x.metadata.absolutePath = c.metadata.absolutePath ∧
      x.metadata.relativePath = c.metadata.relativePath ∧
      x.metadata.pkg = c.metadata.pkg ∧
      x.metadata.className = c.metadata.className ∧
      x.metadata.methodName = c.metadata.methodName ∧
      x.metadata.chunkType = c.metadata.chunkType ∧
      x.metadata.language = c.metadata.language ∧
      x.metadata.lineEnd = c.metadata.lineEnd ∧
      x.metadata.contentHash = c.metadata.contentHash := by
  intro fuel
  induction fuel with
  | zero => intro s idx cs h; cases h
  | succ fuel ih =>
    intro s idx cs h
    simp only [splitLoop] at h
    by_cases hc : s < (c.content.length : Int)
    · rw [if_pos hc] at h
      by_cases hend : (c.content.length : Int) ≤
          min (s + M) (c.content.length : Int)
      · rw [if_pos hend] at h
        simp only [Option.some.injEq] at h
        subst h
        intro x hx
        simp only [List.mem_singleton] at hx
        subst hx
        exact ⟨rfl, rfl, rfl, rfl, rfl, rfl, rfl, rfl, rfl⟩
      · rw [if_neg hend] at h
        cases hr : splitLoop c M O fuel
            (min (s + M) (c.content.length : Int) - O) (idx + 1) with
        | none => rw [hr] at h; cases h
        | some rest =>
          rw [hr] at h
          simp only [Option.some.injEq] at h
          subst h
          intro x hx
          rcases List.mem_cons.mp hx with hx | hx
          · subst hx
            exact ⟨rfl, rfl, rfl, rfl, rfl, rfl, rfl, rfl, rfl⟩
          · exact ih _ _ _ hr x hx
    · rw [if_neg hc] at h
      simp only [Option.some.injEq] at h
      subst h
      intro x hx
      simp at hx

/-- C9: a sub-chunk produced from an oversized parent keeps every metadata
field except `lineStart` verbatim — in particular `lineEnd` and
`contentHash` (the hash of the parent's full content, not of the
sub-chunk's own content) are the parent's. -/
theorem splitOversizedChunk_metadata_frame (fuel : Nat) (c : Chunk)
    (M O : Int) (cs : List Chunk) (x : Chunk)
    (hover : M < (c.content.length : Int))
    (hrun : splitOversizedChunk fuel c M O = some cs) (hx : x ∈ cs) :
    x.metadata.absolutePath = c.metadata.absolutePath ∧
    x.metadata.relativePath = c.metadata.relativePath ∧
    x.metadata.pkg = c.metadata.pkg ∧
    x.metadata.className = c.metadata.className ∧
    x.metadata.methodName = c.metadata.methodName ∧
    x.metadata.chunkType = c.metadata.chunkType ∧
    x.metadata.language = c.metadata.language ∧
    x.metadata.lineEnd = c.metadata.lineEnd ∧
    x.metadata.contentHash = c.metadata.contentHash := by
  unfold splitOversizedChunk at hrun
  rw [if_neg (not_le.mpr hover)] at hrun
  exact splitLoop_metadata c M O fuel 0 0 cs hrun x hx

/-- C9 witness: the first sub-chunk of the concrete split inherits the
parent's metadata except `lineStart`. -/
theorem splitOversizedChunk_metadata_frame_witness :
    subTen.metadata.absolutePath = chunkTen.metadata.absolutePath ∧
    subTen.metadata.relativePath = chunkTen.metadata.relativePath ∧
    subTen.metadata.pkg = chunkTen.metadata.pkg ∧
    subTen.metadata.className = chunkTen.metadata.className ∧
    subTen.metadata.methodName = chunkTen.metadata.methodName ∧
    subTen.metadata.chunkType = chunkTen.metadata.chunkType ∧
    subTen.metadata.language = chunkTen.metadata.language ∧
    subTen.metadata.lineEnd = chunkTen.metadata.lineEnd ∧
    subTen.metadata.contentHash = chunkTen.metadata.contentHash :=
  splitOversizedChunk_metadata_frame 10 chunkTen 4 1 csTen subTen
    (by decide) (by decide) (by decide)

/-! ## C2: the per-file pipeline filters, it does not split -/

/-- C2 (amended): `processFile` applies no splitter to the extracted
chunks: it keeps, in order, exactly the chunks whose content length is at
most `MAX_CHUNK_SIZE` (these are then embedded and upserted) and drops the
rest with a warning. -/
theorem processFileValidChunks_spec (chunks : List Chunk) :
    List.Sublist (processFileValidChunks chunks) chunks ∧
    ∀ ch, ch ∈ processFileValidChunks chunks ↔
      ch ∈ chunks ∧ ch.content.length ≤ MAX_CHUNK_SIZE := by
  constructor
  · exact List.filter_sublist chunks
  · intro ch
    simp [processFileValidChunks, List.mem_filter]

/-- C2 counterexample: a 2000-character chunk — over the configured chunk
size of 1000 — passes through `processFile`'s size stage unsplit, and a
30001-character chunk is dropped outright even though the oversize splitter
(never invoked by the pipeline) would have produced only chunks within the
30000-character ceiling. -/
theorem processFile_never_splits :
    defaultChunkSize < chunkMid.content.length ∧
    processFileValidChunks [chunkMid] = [chunkMid] ∧
    MAX_CHUNK_SIZE < chunkBig.content.length ∧
    processFileValidChunks [chunkBig] = [] ∧
    ∃ cs, splitOversizedChunk 30001 chunkBig 30000 200 = some cs ∧
      cs ≠ [] ∧ ∀ x ∈ cs, x.content.length ≤ MAX_CHUNK_SIZE := by
  have hmid : chunkMid.content.length = 2000 := by
    show (List.replicate 2000 'a').length = 2000
    rw [List.length_replicate]
  have hbig : chunkBig.content.length = 30001 := by
    show (List.replicate 30001 'a').length = 30001
    rw [List.length_replicate]
  refine ⟨?_, ?_, ?_, ?_, ?_⟩
  · rw [hmid]
    norm_num [defaultChunkSize]
  · simp [processFileValidChunks, List.filter_cons, hmid, MAX_CHUNK_SIZE]
  · rw [hbig]
    norm_num [MAX_CHUNK_SIZE]
  · simp [processFileValidChunks, List.filter_cons, hbig, MAX_CHUNK_SIZE]
  · obtain ⟨cs, hrun, hhead, hdrop, hwid, hlast⟩ :=
      splitLoop_inv chunkBig 30000 200 (by norm_num) (by norm_num)
        (by norm_num) 30001 0 0 (by rw [hbig]; norm_num) (by rw [hbig])
    refine ⟨cs, ?_, ?_, ?_⟩
    · unfold splitOversizedChunk
      rw [if_neg (by rw [hbig]; norm_num)]
      rw [show ((0 : Nat) : Int) = (0 : Int) by norm_num] at hrun
      exact hrun
    · rw [hhead]; simp
    · intro x hx
      have := hwid x hx
      simpa [MAX_CHUNK_SIZE] using this

/-! ## C1 / C7: the batch orchestrator -/

/-- A per-file task touches the shared cache only at its own path. -/
theorem runFileTask_other_key (sha256 : String → String) (fs : FileSys)
    (proc : ProcessModel) (cache : HashCache) (p q : String) (h : q ≠ p) :
    ((runFileTask sha256 fs proc cache p).2) q = cache q := by
  unfold runFileTask
  cases hc : hasFileChanged fs cache p with
  | error e => cases e; rfl
  | ok b =>
    cases b
    · rfl
    · cases hp : proc p with
      | error m => rfl
      | ok n =>
        dsimp only
        by_cases hn : 0 < n
        · rw [if_pos hn]
          unfold updateFile
          cases hf : fs p with
          | none => rfl
          | some st => simp [h]
        · rw [if_neg hn]

/-- A run leaves the cache untouched at paths outside the file list. -/
theorem ingestFiles_other_key (sha256 : String → String) (fs : FileSys)
    (proc : ProcessModel) :
    ∀ (l : List String) (cache : HashCache) (p : String), p ∉ l →
    ((ingestFiles sha256 fs proc l cache).2) p = cache p := by
  intro l
  induction l with
  | nil => intro cache p h; rfl
  | cons a t ih =>
    intro cache p h
    simp only [List.mem_cons, not_or] at h
    simp only [ingestFiles]
    rw [ih ((runFileTask sha256 fs proc cache a).2) p h.2]
    exact runFileTask_other_key sha256 fs proc cache a p h.1

/-- `hasFileChanged` reads the cache only at the queried path. -/
theorem hasFileChanged_congr (fs : FileSys) (c1 c2 : HashCache) (p : String)
    (h : c1 p = c2 p) :
    hasFileChanged fs c1 p = hasFileChanged fs c2 p := by
  unfold hasFileChanged
  rw [h]

/-- A fresh fingerprint makes `hasFileChanged` answer `false`. -/
theorem cacheFresh_skip (fs : FileSys) (cache : HashCache) (p : String)
    (h : cacheFresh fs cache p) :
    hasFileChanged fs cache p = .ok false := by
  obtain ⟨st, r, hfs, hc, hle⟩ := h
  unfold hasFileChanged
  rw [hfs, hc]
  simp only [Except.ok.injEq, decide_eq_false_iff_not, not_lt]
  exact hle

/-- An existing file whose processing succeeds never errors its task. -/
theorem runFileTask_good (sha256 : String → String) (fs : FileSys)
    (proc : ProcessModel) (cache : HashCache) (p : String) (st : FileData)
    (n : Nat) (hfs : fs p = some st) (hproc : proc p = .ok n) :
    (runFileTask sha256 fs proc cache p).1 = .skipped ∨
    ∃ m, (runFileTask sha256 fs proc cache p).1 = .processed m := by
  unfold runFileTask
  cases hc : hasFileChanged fs cache p with
  | error e =>
    exfalso
    unfold hasFileChanged at hc
    rw [hfs] at hc
    cases hcp : cache p <;> rw [hcp] at hc <;> cases hc
  | ok b =>
    cases b
    · left; rfl
    · right
      rw [hproc]
      dsimp only
      by_cases hn : 0 < n
      · rw [if_pos hn]
        unfold updateFile
        rw [hfs]
        exact ⟨n, rfl⟩
      · rw [if_neg hn]
        exact ⟨n, rfl⟩

/-- A run over files that exist and process cleanly reports no errors, and
every file counts as processed or skipped. -/
theorem ingestFiles_good_counts (sha256 : String → String) (fs : FileSys)
    (proc : ProcessModel) :
    ∀ (l : List String) (cache : HashCache),
    (∀ q ∈ l, (∃ st, fs q = some st) ∧ ∃ n, proc q = .ok n) →
    (ingestFiles sha256 fs proc l cache).1.errors = 0 ∧
    (ingestFiles sha256 fs proc l cache).1.filesProcessed +
      (ingestFiles sha256 fs proc l cache).1.filesSkipped = l.length := by
  intro l
  induction l with
  | nil => intro cache h; exact ⟨rfl, rfl⟩
  | cons a t ih =>
    intro cache h
    obtain ⟨⟨st, hsta⟩, ⟨n, hproca⟩⟩ := h a (by simp)
    have ht := ih ((runFileTask sha256 fs proc cache a).2)
      (fun q hq => h q (List.mem_cons_of_mem _ hq))
    simp only [ingestFiles]
    rcases runFileTask_good sha256 fs proc cache a st n hsta hproca with
      ho | ⟨m, ho⟩ <;> rw [ho] <;>
      simp only [tallyOutcome, List.length_cons] <;> omega

/-- After a task that processed at least one chunk — or skipped because the
fingerprint was already fresh — the file's fingerprint is fresh. -/
theorem runFileTask_fresh (sha256 : String → String) (fs : FileSys)
    (proc : ProcessModel) (cache : HashCache) (p : String) (st : FileData)
    (n : Nat) (hfs : fs p = some st) (hproc : proc p = .ok n) (hn : 0 < n) :
    cacheFresh fs ((runFileTask sha256 fs proc cache p).2) p := by
  unfold runFileTask
  cases hc : hasFileChanged fs cache p with
  | error e =>
    exfalso
    unfold hasFileChanged at hc
    rw [hfs] at hc
    cases hcp : cache p <;> rw [hcp] at hc <;> cases hc
  | ok b =>
    cases b
    · dsimp only
      unfold hasFileChanged at hc
      rw [hfs] at hc
      cases hcp : cache p with
      | none => rw [hcp] at hc; cases hc
      | some r =>
        rw [hcp] at hc
        simp only [Except.ok.injEq, decide_eq_false_iff_not, not_lt] at hc
        exact ⟨st, r, hfs, hcp, hc⟩
    · rw [hproc]
      dsimp only
      rw [if_pos hn]
      unfold updateFile
      rw [hfs]
      exact ⟨st, ⟨p, sha256 st.content, st.mtimeMs, n⟩, hfs, by simp, by simp⟩

/-- After a clean run in which every file yields at least one chunk, every
file of the run has a fresh fingerprint. -/
theorem ingestFiles_fresh (sha256 : String → String) (fs : FileSys)
    (proc : ProcessModel) :
    ∀ (l : List String) (cache : HashCache),
    (∀ q ∈ l, ∃ st n, fs q = some st ∧ proc q = .ok n ∧ 0 < n) →
    ∀ p ∈ l, cacheFresh fs ((ingestFiles sha256 fs proc l cache).2) p := by
  intro l
  induction l with
  | nil => intro cache h p hp; simp at hp
  | cons a t ih =>
    intro cache h p hp
    simp only [ingestFiles]
    rcases List.mem_cons.mp hp with hpa | hpt
    · subst hpa
      by_cases hmem : p ∈ t
      · exact ih _ (fun q hq => h q (List.mem_cons_of_mem _ hq)) p hmem
      · obtain ⟨st, n, hfs, hproc, hn⟩ := h p (by simp)
        obtain ⟨st', r, hfs', hcp, hle⟩ :=
          runFileTask_fresh sha256 fs proc cache p st n hfs hproc hn
        exact ⟨st', r, hfs', by
          rw [ingestFiles_other_key sha256 fs proc t _ p hmem]
          exact hcp, hle⟩
    · exact ih _ (fun q hq => h q (List.mem_cons_of_mem _ hq)) p hpt

/-- A run over files whose fingerprints are all fresh skips everything and
changes nothing. -/
theorem ingestFiles_all_skip (sha256 : String → String) (fs : FileSys)
    (proc : ProcessModel) :
    ∀ (l : List String) (cache : HashCache),
    (∀ p ∈ l, cacheFresh fs cache p) →
    ingestFiles sha256 fs proc l cache = (⟨0, l.length, 0, 0⟩, cache) := by
  intro l
  induction l with
  | nil => intro cache h; rfl
  | cons a t ih =>
    intro cache h
    have hskip : runFileTask sha256 fs proc cache a = (.skipped, cache) := by
      unfold runFileTask
      rw [cacheFresh_skip fs cache a (h a (by simp))]
    simp only [ingestFiles, hskip]
    rw [ih cache (fun p hp => h p (List.mem_cons_of_mem _ hp))]
    rfl

/-- C1 (amended): re-running ingestion immediately over an unmodified tree
reports every file as skipped with no chunks and no errors, provided every
file exists and every file's processing yields at least one chunk (a
zero-chunk file is never fingerprinted, so the second run processes it
again — see the counterexample). -/
theorem ingest_second_run_all_skipped (sha256 : String → String)
    (fs : FileSys) (proc : ProcessModel) (files : List String)
    (cache0 : HashCache)
    (h : ∀ p ∈ files, ∃ st n, fs p = some st ∧ proc p = .ok n ∧ 0 < n) :
    (ingestFiles sha256 fs proc files
      (ingestFiles sha256 fs proc files cache0).2).1 =
      ⟨0, files.length, 0, 0⟩ := by
  have hfresh := ingestFiles_fresh sha256 fs proc files cache0 h
  rw [ingestFiles_all_skip sha256 fs proc files _ hfresh]

/-- C1 witness: two clean two-chunk files; the second run skips both. -/
theorem ingest_second_run_all_skipped_witness :
    (ingestFiles shaFix fsFix procTwo ["a.gs", "c.gs"]
      (ingestFiles shaFix fsFix procTwo ["a.gs", "c.gs"] cacheEmpty).2).1 =
      ⟨0, 2, 0, 0⟩ :=
  ingest_second_run_all_skipped shaFix fsFix procTwo ["a.gs", "c.gs"]
    cacheEmpty (by
      intro p hp
      simp only [List.mem_cons, List.not_mem_nil, or_false] at hp
      rcases hp with rfl | rfl
      · exact ⟨⟨5, "class A {}"⟩, 2, rfl, rfl, by omega⟩
      · exact ⟨⟨9, "class C {}"⟩, 2, rfl, rfl, by omega⟩)

/-- C1 counterexample: a single file whose processing yields zero chunks is
never fingerprinted, so the second run processes it again instead of
skipping it: the second run reports processed = 1, skipped = 0, not
skipped = 1, processed = 0 as the claim demands. -/
theorem ingest_second_run_reprocesses_zero_chunk :
    (ingestFiles shaFix fsFix procZero ["a.gs"]
      (ingestFiles shaFix fsFix procZero ["a.gs"] cacheEmpty).2).1 =
      ⟨1, 0, 0, 0⟩ ∧
    (⟨1, 0, 0, 0⟩ : IngestionResult) ≠ ⟨0, 1, 0, 0⟩ :=
  ⟨rfl, by decide⟩

/-- C7: in a run whose file list contains exactly one file whose processing
throws (all other files exist and process cleanly, and the throwing file is
due for processing), the exception is caught at the file-task boundary: the
run completes over the whole list, reports exactly one error, and every
other file yields a processed or skipped outcome. -/
theorem ingest_single_failure_isolated (sha256 : String → String)
    (fs : FileSys) (proc : ProcessModel) (l1 l2 : List String)
    (p emsg : String) (cache0 : HashCache)
    (hp1 : p ∉ l1) (hp2 : p ∉ l2)
    (hchanged : hasFileChanged fs cache0 p = .ok true)
    (hthrow : proc p = .error emsg)
    (hgood : ∀ q ∈ l1 ++ l2, (∃ st, fs q = some st) ∧ ∃ n, proc q = .ok n) :
    (ingestFiles sha256 fs proc (l1 ++ p :: l2) cache0).1.errors = 1 ∧
    (ingestFiles sha256 fs proc (l1 ++ p :: l2) cache0).1.filesProcessed +
      (ingestFiles sha256 fs proc (l1 ++ p :: l2) cache0).1.filesSkipped =
      l1.length + l2.length ∧
    (ingestFiles sha256 fs proc (l1 ++ p :: l2) cache0).1.filesProcessed +
      (ingestFiles sha256 fs proc (l1 ++ p :: l2) cache0).1.filesSkipped +
      (ingestFiles sha256 fs proc (l1 ++ p :: l2) cache0).1.errors =
      (l1 ++ p :: l2).length := by
  induction l1 generalizing cache0 with
  | nil =>
    simp only [List.nil_append, ingestFiles]
    have hstep : runFileTask sha256 fs proc cache0 p =
        (.errored emsg, cache0) := by
      unfold runFileTask
      rw [hchanged, hthrow]
    rw [hstep]
    obtain ⟨herr, hps⟩ := ingestFiles_good_counts sha256 fs proc l2 cache0
      (fun q hq => hgood q (by simpa using hq))
    simp only [tallyOutcome, List.length_cons, List.length_nil]
    omega
  | cons a l1 ih =>
    simp only [List.mem_cons, not_or] at hp1
    simp only [List.cons_append, ingestFiles]
    obtain ⟨⟨st, hsta⟩, ⟨n, hproca⟩⟩ := hgood a (by simp)
    have hkey : ((runFileTask sha256 fs proc cache0 a).2) p = cache0 p :=
      runFileTask_other_key sha256 fs proc cache0 a p hp1.1
    have hchanged' : hasFileChanged fs
        ((runFileTask sha256 fs proc cache0 a).2) p = .ok true := by
      rw [hasFileChanged_congr fs _ cache0 p hkey]
      exact hchanged
    have hgood' : ∀ q ∈ l1 ++ l2,
        (∃ st, fs q = some st) ∧ ∃ n, proc q = .ok n := by
      intro q hq
      refine hgood q ?_
      rcases List.mem_append.mp hq with hql | hqr
      · exact List.mem_append.mpr (Or.inl (List.mem_cons_of_mem a hql))
      · exact List.mem_append.mpr (Or.inr hqr)
    obtain ⟨herr, hps, htot⟩ := ih ((runFileTask sha256 fs proc cache0 a).2)
      hp1.2 hchanged' hgood'
    simp only [List.append_eq, List.length_cons, List.length_append]
      at htot hps herr
    rcases runFileTask_good sha256 fs proc cache0 a st n hsta hproca with
      ho | ⟨m, ho⟩ <;> rw [ho] <;>
      refine ⟨?_, ?_, ?_⟩ <;>
      simp only [List.append_eq, tallyOutcome, List.length_cons,
        List.length_append] <;>
      omega

/-- C7 witness: three files where only `b.gs` throws — the run reports one
error and two processed/skipped outcomes. -/
theorem ingest_single_failure_isolated_witness :
    (ingestFiles shaFix fsFix procErrAtB (["a.gs"] ++ "b.gs" :: ["c.gs"])
      cacheEmpty).1.errors = 1 ∧
    (ingestFiles shaFix fsFix procErrAtB (["a.gs"] ++ "b.gs" :: ["c.gs"])
      cacheEmpty).1.filesProcessed +
      (ingestFiles shaFix fsFix procErrAtB (["a.gs"] ++ "b.gs" :: ["c.gs"])
        cacheEmpty).1.filesSkipped = ["a.gs"].length + ["c.gs"].length ∧
    (ingestFiles shaFix fsFix procErrAtB (["a.gs"] ++ "b.gs" :: ["c.gs"])
      cacheEmpty).1.filesProcessed +
      (ingestFiles shaFix fsFix procErrAtB (["a.gs"] ++ "b.gs" :: ["c.gs"])
        cacheEmpty).1.filesSkipped +
      (ingestFiles shaFix fsFix procErrAtB (["a.gs"] ++ "b.gs" :: ["c.gs"])
        cacheEmpty).1.errors = (["a.gs"] ++ "b.gs" :: ["c.gs"]).length :=
  ingest_single_failure_isolated shaFix fsFix procErrAtB ["a.gs"] ["c.gs"]
    "b.gs" "parse blew up" cacheEmpty (by decide) (by decide) rfl rfl (by
      intro q hq
      simp only [List.cons_append, List.nil_append, List.mem_cons,
        List.not_mem_nil, or_false] at hq
      rcases hq with rfl | rfl
      · exact ⟨⟨⟨5, "class A {}"⟩, rfl⟩, ⟨3, rfl⟩⟩
      · exact ⟨⟨⟨9, "class C {}"⟩, rfl⟩, ⟨3, rfl⟩⟩)
